import Mathlib

/-!
Shallow embedding of the go-filecoin chain-sync dispatcher
(`syncer` package: `Dispatcher`, `TargetQueue`, `rawQueue`) together with
the relevant semantics of Go's `container/heap` package (`heap.Push`,
`heap.Pop`, `up`, `down`), which the source delegates to.

Go machine integers never approach overflow here (all indices are slice
indices), so `Nat` models Go `int` faithfully on the executed domain; the
one negative value, the `-1` written into a popped target's `index` field,
makes `index` an `Int`.  A Go panic that the source recovers from is
modelled as the `Except.error` branch of the low-level operation.
-/

set_option autoImplicit false

namespace Syncer

/-- `block.ChainInfo`: a chain-head descriptor.  `head` stands for the
tipset key in its canonical string form (`ci.Head.String()` in the source);
`height` is the claimed chain height (unsigned in the source). -/
structure ChainInfo where
  head : String
  height : Nat
deriving DecidableEq, Inhabited

/-- `SyncRequest`: a chain-head descriptor plus the heap-internal position
token (`index int` in the source, set to `-1` on pop). -/
structure SyncRequest where
  chainInfo : ChainInfo
  index : Int
deriving DecidableEq, Inhabited

/-- Height of a sync request (`req.Height`, promoted from the embedded
`ChainInfo`). -/
def SyncRequest.height (r : SyncRequest) : Nat := r.chainInfo.height

/-- `rawQueue`: the slice `[]*SyncRequest` backing the heap. -/
abbrev RawQueue := List SyncRequest

/-- Height of the element at slot `i` (`rq[i].Height`).  All executed
accesses are in bounds; the default is irrelevant there. -/
def heightAt (rq : RawQueue) (i : Nat) : Nat :=
  (rq.getD i default).height

/-- `rawQueue.Less(i, j)`: `rq[i].Height > rq[j].Height` (greater-than so
that `Pop` yields the highest priority). -/
def rqLess (rq : RawQueue) (i j : Nat) : Bool :=
  decide (heightAt rq i > heightAt rq j)

/-- `rawQueue.Swap(i, j)`: `rq[i], rq[j] = rq[j], rq[i]` followed by
`rq[i].index = j; rq[j].index = i` — the source writes each element's OLD
slot into its `index` field (the element now at slot `i` is the old
`rq[j]` and receives `index = j`). -/
def rqSwap (rq : RawQueue) (i j : Nat) : RawQueue :=
  let a := rq.getD i default
  let b := rq.getD j default
  (rq.set i { b with index := (j : Int) }).set j { a with index := (i : Int) }

/-- `rawQueue.Push(x)`: `n := len(*rq); syncReq := x.(*SyncRequest);
syncReq.index = n; *rq = append(*rq, syncReq)`.  A nil `*SyncRequest`
(modelled as `none`) panics at `syncReq.index = n` before the append, so
the queue is unchanged: modelled as the error branch. -/
def rawQueuePush (rq : RawQueue) (x : Option SyncRequest) : Except Unit RawQueue :=
  match x with
  | none => .error ()
  | some r => .ok (rq ++ [{ r with index := (rq.length : Int) }])

/-- `rawQueue.Pop()`: take the last element, nil out its slot, set its
`index` to `-1`, shrink the slice.  On an empty slice `old[n-1]` panics:
modelled as the error branch. -/
def rawQueuePop (rq : RawQueue) : Except Unit (SyncRequest × RawQueue) :=
  match rq.getLast? with
  | none => .error ()
  | some item => .ok ({ item with index := -1 }, rq.dropLast)

/-- One-loop body of `container/heap.up(h, j)` with an explicit iteration
bound: the sifted slot strictly decreases each iteration, so any
`fuel > j` strictly dominates the loop's iteration count and the
exhaustion branch is unreachable (structural recursion lets the kernel
evaluate the function).  Go's `(j-1)/2` at `j = 0` is `-1/2 = 0`
(truncation toward zero), which equals Nat's `(0-1)/2 = 0`, so `Nat`
subtraction is faithful. -/
def heapUpF (fuel : Nat) (rq : RawQueue) (j : Nat) : RawQueue :=
  match fuel with
  | 0 => rq
  | fuel + 1 =>
    let i := (j - 1) / 2
    if i = j ∨ ¬ rqLess rq j i then rq
    else heapUpF fuel (rqSwap rq i j) i

/-- `container/heap.up(h, j)`: sift the element at `j` toward the root
while it is `Less` than its parent. -/
def heapUp (rq : RawQueue) (j : Nat) : RawQueue := heapUpF (j + 1) rq j

/-- The child `down` selects: `j := j1; if j2 := j1 + 1; j2 < n &&
h.Less(j2, j1) { j = j2 }` — the right child when it exists within `n`
and is `Less`-prior, else the left child `j1`. -/
def downChild (rq : RawQueue) (j1 n : Nat) : Nat :=
  if j1 + 1 < n ∧ rqLess rq (j1 + 1) j1 then j1 + 1 else j1

/-- One-loop body of `container/heap.down(h, i, n)` with an explicit
iteration bound: the sifted slot strictly increases while staying below
`n`, so any `fuel ≥ n - i` dominates the loop's iteration count and the
exhaustion branch coincides with the loop's own exit (it is reached only
when `2*i+1 < n` already fails).  (Go's `j1 < 0` overflow guard can never
fire at reachable sizes.) -/
def heapDownF (fuel : Nat) (rq : RawQueue) (i n : Nat) : RawQueue :=
  match fuel with
  | 0 => rq
  | fuel + 1 =>
    if 2 * i + 1 < n then
      if rqLess rq (downChild rq (2 * i + 1) n) i then
        heapDownF fuel (rqSwap rq i (downChild rq (2 * i + 1) n))
          (downChild rq (2 * i + 1) n) n
      else rq
    else rq

/-- `container/heap.down(h, i, n)`: sift the element at `i` toward its
`Less`-prior child while that child is within `n` and `Less` than it. -/
def heapDown (rq : RawQueue) (i n : Nat) : RawQueue := heapDownF (n - i) rq i n

/-- `container/heap.Push(h, x)`: `h.Push(x); up(h, h.Len()-1)`. -/
def heapPush (rq : RawQueue) (x : Option SyncRequest) : Except Unit RawQueue :=
  match rawQueuePush rq x with
  | .error e => .error e
  | .ok rq1 => .ok (heapUp rq1 (rq1.length - 1))

/-- `container/heap.Pop(h)`: `n := h.Len() - 1; h.Swap(0, n);
down(h, 0, n); return h.Pop()`.  On an empty queue `n = -1` and
`Swap(0, -1)` panics on the out-of-range access before any mutation:
modelled as the error branch. -/
def heapPop (rq : RawQueue) : Except Unit (SyncRequest × RawQueue) :=
  if rq.length = 0 then .error ()
  else
    let n := rq.length - 1
    rawQueuePop (heapDown (rqSwap rq 0 n) 0 n)

/-- The declared error values `errBadPush` / `errBadPop`. -/
inductive QErr where
  | badPush
  | badPop
deriving DecidableEq

/-- `TargetQueue`: the panic-recovering wrapper around `rawQueue`. -/
structure TargetQueue where
  q : RawQueue
deriving DecidableEq

/-- `NewTargetQueue()`: `heap.Init` over the empty slice is a no-op (its
loop runs from `n/2 - 1 = -1`), so the initial state is the empty queue. -/
def NewTargetQueue : TargetQueue := ⟨[]⟩

/-- `TargetQueue.Push(req)`: `heap.Push(&tq.q, req)` with any panic
recovered as `errBadPush`; the nil-pointer panic happens before the queue
is mutated, so the state is returned unchanged on error. -/
def TargetQueue.Push (tq : TargetQueue) (req : Option SyncRequest) :
    TargetQueue × Option QErr :=
  match heapPush tq.q req with
  | .error _ => (tq, some .badPush)
  | .ok rq1 => (⟨rq1⟩, none)

/-- `TargetQueue.Pop()`: `heap.Pop(&tq.q).(*SyncRequest)` with any panic
recovered as `req = nil, err = errBadPop`; the empty-queue panic happens
before any mutation, so the state is returned unchanged on error. -/
def TargetQueue.Pop (tq : TargetQueue) :
    Option SyncRequest × TargetQueue × Option QErr :=
  match heapPop tq.q with
  | .error _ => (none, tq, some .badPop)
  | .ok (r, rq1) => (some r, ⟨rq1⟩, none)

/-- `TargetQueue.Len()`. -/
def TargetQueue.Len (tq : TargetQueue) : Nat := tq.q.length

/-- `Dispatcher`: the dedup set (`map[string]struct{}`, modelled as the
list of inserted keys — `receive` inserts a key only when absent, so the
list never holds duplicates) and the target queue.  The mutex serializes
`receive`; each call is modelled as one atomic state transition. -/
structure Dispatcher where
  targetSet : List String
  targetQ : TargetQueue
deriving DecidableEq

/-- `NewDispatcher()`. -/
def NewDispatcher : Dispatcher := ⟨[], NewTargetQueue⟩

/-- The body of `Dispatcher.receive` with the pushed value as a parameter:
check the dedup set, push, propagate a push error with the set untouched,
otherwise insert the key.  `receive` instantiates it with the (never nil)
fresh request. -/
def Dispatcher.receiveGen (d : Dispatcher) (ci : ChainInfo)
    (req : Option SyncRequest) : Dispatcher × Option QErr :=
  if d.targetSet.contains ci.head then (d, none)
  else
    match TargetQueue.Push d.targetQ req with
    | (tq1, some e) => ({ d with targetQ := tq1 }, some e)
    | (tq1, none) =>
        ({ d with targetSet := d.targetSet ++ [ci.head], targetQ := tq1 }, none)

/-- `Dispatcher.receive(ci)`: the shared acceptance procedure, pushing
`&SyncRequest{ChainInfo: ci}` (whose `index` field is zero-valued). -/
def Dispatcher.receive (d : Dispatcher) (ci : ChainInfo) :
    Dispatcher × Option QErr :=
  d.receiveGen ci (some { chainInfo := ci, index := 0 })

/-- `Dispatcher.ReceiveHello`. -/
def Dispatcher.ReceiveHello (d : Dispatcher) (ci : ChainInfo) :
    Dispatcher × Option QErr := d.receive ci

/-- `Dispatcher.ReceiveOwnBlock`. -/
def Dispatcher.ReceiveOwnBlock (d : Dispatcher) (ci : ChainInfo) :
    Dispatcher × Option QErr := d.receive ci

/-- `Dispatcher.ReceiveGossipBlock`. -/
def Dispatcher.ReceiveGossipBlock (d : Dispatcher) (ci : ChainInfo) :
    Dispatcher × Option QErr := d.receive ci

/-! ### Derived notions used to state the claims -/

/-- The three named ingestion entry points, as a choice. -/
inductive Entry where
  | hello
  | own
  | gossip
deriving DecidableEq

/-- Submit one descriptor through the chosen entry point. -/
def applyEntry (e : Entry) (d : Dispatcher) (ci : ChainInfo) :
    Dispatcher × Option QErr :=
  match e with
  | .hello => d.ReceiveHello ci
  | .own => d.ReceiveOwnBlock ci
  | .gossip => d.ReceiveGossipBlock ci

/-- Run a sequence of submissions, each through its chosen entry point. -/
def runEntries (d : Dispatcher) (ps : List (Entry × ChainInfo)) : Dispatcher :=
  ps.foldl (fun d p => (applyEntry p.1 d p.2).1) d

/-- Pop repeatedly (at most `fuel` times, stopping on an empty queue),
collecting the heights of the returned targets. -/
def popHeightsFuel : Nat → TargetQueue → List Nat
  | 0, _ => []
  | fuel + 1, tq =>
    match TargetQueue.Pop tq with
    | (some r, tq1, _) => r.height :: popHeightsFuel fuel tq1
    | (none, _, _) => []

/-- Pop all remaining elements, collecting their heights: `Len` pops drain
the queue since each successful pop removes exactly one element. -/
def TargetQueue.popAllHeights (tq : TargetQueue) : List Nat :=
  popHeightsFuel tq.Len tq

/-- Queue states reachable through the public `TargetQueue` interface:
the fresh queue, and the results of any pushes (nil included) and pops. -/
inductive Reach : TargetQueue → Prop where
  | init : Reach NewTargetQueue
  | push : ∀ tq r, Reach tq → Reach (TargetQueue.Push tq r).1
  | pop : ∀ tq, Reach tq → Reach (TargetQueue.Pop tq).2.1

/-- An externally observable operation on a dispatcher: a `receive` (any
entry point) or a consumer `Pop` of its target queue. -/
inductive DOp where
  | recv (ci : ChainInfo)
  | pop

/-- One observable step. -/
def dstep (d : Dispatcher) : DOp → Dispatcher
  | .recv ci => (d.receive ci).1
  | .pop => { d with targetQ := (TargetQueue.Pop d.targetQ).2.1 }

/-- Run a sequence of observable operations. -/
def runDOps (d : Dispatcher) (ops : List DOp) : Dispatcher :=
  ops.foldl dstep d

/-- Number of successful pops in a run (a pop succeeds exactly when the
queue is nonempty at that moment). -/
def popCount (d : Dispatcher) : List DOp → Nat
  | [] => 0
  | op :: ops =>
    (match op with
      | .pop => if d.targetQ.Len ≠ 0 then 1 else 0
      | .recv _ => 0) + popCount (dstep d op) ops

/-- The max-heap invariant as the spec states it: every element's height
is ≥ both its children's heights. -/
def IsHeap (rq : RawQueue) : Prop :=
  ∀ i c, c < rq.length → (c = 2 * i + 1 ∨ c = 2 * i + 2) →
    heightAt rq c ≤ heightAt rq i

/-- The max-heap invariant, parent form: every non-root element is ≤ its
parent `(k-1)/2`. -/
def IsHeapP (rq : RawQueue) : Prop :=
  ∀ k, k < rq.length → 1 ≤ k → heightAt rq k ≤ heightAt rq ((k - 1) / 2)

/-- Run a sequence of `receive` calls. -/
def runRecvs (d : Dispatcher) (cis : List ChainInfo) : Dispatcher :=
  cis.foldl (fun d ci => (d.receive ci).1) d

/-- Loop invariant of `up` while slot `j` is the one being sifted: every
non-root slot other than `j` is ≤ its parent, and every child of `j` is
≤ `j`'s parent (so the sift may move `j`'s value up past them). -/
def UpInv (rq : RawQueue) (j : Nat) : Prop :=
  (∀ k, k < rq.length → 1 ≤ k → k ≠ j →
    heightAt rq k ≤ heightAt rq ((k - 1) / 2)) ∧
  (1 ≤ j → ∀ k, k < rq.length → (k - 1) / 2 = j →
    heightAt rq k ≤ heightAt rq ((j - 1) / 2))

/-- The heap invariant restricted to the first `n` slots. -/
def IsHeapTo (rq : RawQueue) (n : Nat) : Prop :=
  ∀ k, k < n → 1 ≤ k → heightAt rq k ≤ heightAt rq ((k - 1) / 2)

/-- Loop invariant of `down` while slot `i` is the one being sifted
(within the first `n` slots): every non-root slot whose parent is not `i`
is ≤ its parent, and every child of `i` is ≤ `i`'s parent. -/
def DownInv (rq : RawQueue) (i n : Nat) : Prop :=
  (∀ k, k < n → 1 ≤ k → (k - 1) / 2 ≠ i →
    heightAt rq k ≤ heightAt rq ((k - 1) / 2)) ∧
  (1 ≤ i → ∀ k, k < n → (k - 1) / 2 = i →
    heightAt rq k ≤ heightAt rq ((i - 1) / 2))

/-- All ways to insert `a` into a list (used to enumerate permutations
so that a universally quantified "in any order" claim can be checked by
evaluation). -/
def insertions {α : Type _} (a : α) : List α → List (List α)
  | [] => [[a]]
  | b :: l => (a :: b :: l) :: (insertions a l).map (b :: ·)

/-- All permutations of a list, by repeated insertion. -/
def permsOf {α : Type _} : List α → List (List α)
  | [] => [[]]
  | a :: l => (permsOf l).flatMap (insertions a)

/-! ### Basic list-indexing lemmas -/

theorem getD_set_self {α : Type _} (l : List α) (i : Nat) (v d : α)
    (h : i < l.length) : (l.set i v).getD i d = v := by
  simp [List.getD_eq_getElem?_getD, List.getElem?_set_self, h]

theorem getD_set_ne {α : Type _} (l : List α) {i j : Nat} (v d : α)
    (h : i ≠ j) : (l.set i v).getD j d = l.getD j d := by
  simp [List.getD_eq_getElem?_getD, List.getElem?_set_ne h]

theorem getD_append_lt {α : Type _} (l l2 : List α) (k : Nat) (d : α)
    (h : k < l.length) : (l ++ l2).getD k d = l.getD k d := by
  simp [List.getD_eq_getElem?_getD, List.getElem?_append_left h]

theorem getD_dropLast_lt {α : Type _} (l : List α) (k : Nat) (d : α)
    (h : k < l.length - 1) : l.dropLast.getD k d = l.getD k d := by
  have hk : k < l.length := by omega
  simp [List.getD_eq_getElem?_getD, List.getElem?_dropLast, h,
    List.getElem?_eq_getElem hk]

/-! ### Swap and height lemmas -/

theorem length_rqSwap (rq : RawQueue) (i j : Nat) :
    (rqSwap rq i j).length = rq.length := by
  simp [rqSwap]

theorem rqLess_iff (rq : RawQueue) (i j : Nat) :
    rqLess rq i j = true ↔ heightAt rq j < heightAt rq i := by
  simp [rqLess]

theorem heightAt_rqSwap (rq : RawQueue) {i j : Nat}
    (hi : i < rq.length) (hj : j < rq.length) (k : Nat) :
    heightAt (rqSwap rq i j) k =
      if k = j then heightAt rq i
      else if k = i then heightAt rq j
      else heightAt rq k := by
  unfold rqSwap heightAt
  by_cases hkj : k = j
  · subst hkj
    rw [getD_set_self _ _ _ _ (by simpa using hj)]
    simp [SyncRequest.height]
  · rw [getD_set_ne _ _ _ (Ne.symm hkj)]
    by_cases hki : k = i
    · subst hki
      rw [getD_set_self _ _ _ _ hi]
      simp [SyncRequest.height, hkj]
    · rw [getD_set_ne _ _ _ (Ne.symm hki)]
      simp [hkj, hki]

theorem heightAt_append_lt (rq : RawQueue) (x : SyncRequest) (k : Nat)
    (h : k < rq.length) : heightAt (rq ++ [x]) k = heightAt rq k := by
  unfold heightAt
  rw [getD_append_lt _ _ _ _ h]

/-! ### Length preservation of the sift operations -/

theorem length_heapUpF (fuel : Nat) :
    ∀ (rq : RawQueue) (j : Nat), (heapUpF fuel rq j).length = rq.length := by
  induction fuel with
  | zero => intro rq j; rfl
  | succ fuel ih =>
    intro rq j
    rw [heapUpF]
    split
    · rfl
    · rw [ih, length_rqSwap]

theorem length_heapUp (rq : RawQueue) (j : Nat) :
    (heapUp rq j).length = rq.length := length_heapUpF _ rq j

theorem length_heapDownF (fuel : Nat) :
    ∀ (rq : RawQueue) (i n : Nat), (heapDownF fuel rq i n).length = rq.length := by
  induction fuel with
  | zero => intro rq i n; rfl
  | succ fuel ih =>
    intro rq i n
    rw [heapDownF]
    split
    · split
      · rw [ih, length_rqSwap]
      · rfl
    · rfl

theorem length_heapDown (rq : RawQueue) (i n : Nat) :
    (heapDown rq i n).length = rq.length := length_heapDownF _ rq i n

/-! ### Completeness of the permutation enumerator -/

theorem mem_insertions {α : Type _} [DecidableEq α] (a : α) :
    ∀ l : List α, a ∈ l → l ∈ insertions a (l.erase a) := by
  intro l
  induction l with
  | nil => intro h; cases h
  | cons b r ih =>
    intro hmem
    by_cases hab : a = b
    · subst hab
      rw [List.erase_cons_head]
      cases r with
      | nil => exact List.mem_singleton.mpr rfl
      | cons c s =>
        unfold insertions
        exact List.mem_cons_self _ _
    · have har : a ∈ r := by
        rcases List.mem_cons.mp hmem with h | h
        · exact absurd h.symm (Ne.symm hab)
        · exact h
      rw [List.erase_cons_tail (by simp [Ne.symm hab])]
      unfold insertions
      exact List.mem_cons.mpr (Or.inr (List.mem_map.mpr ⟨r, ih har, rfl⟩))

theorem mem_permsOf_of_perm {α : Type _} [DecidableEq α] :
    ∀ {l0 l : List α}, l.Perm l0 → l ∈ permsOf l0 := by
  intro l0
  induction l0 with
  | nil =>
    intro l h
    rw [List.perm_nil.mp h]
    exact List.mem_singleton.mpr rfl
  | cons a t ih =>
    intro l h
    have ha : a ∈ l := h.symm.subset (List.mem_cons_self a t)
    have he : (l.erase a).Perm t := by
      have := h.erase a
      rwa [List.erase_cons_head] at this
    unfold permsOf
    exact List.mem_flatMap.mpr ⟨l.erase a, ih he, mem_insertions a l ha⟩

/-! ### Sift-up restores the heap invariant -/

theorem isHeapP_heapUpF (fuel : Nat) :
    ∀ (rq : RawQueue) (j : Nat), j < fuel → j < rq.length → UpInv rq j →
      IsHeapP (heapUpF fuel rq j) := by
  induction fuel with
  | zero => intro rq j h; exact absurd h (Nat.not_lt_zero j)
  | succ fuel ih =>
    intro rq j hfuel hj hinv
    rw [heapUpF]
    split
    · -- loop exits: either at the root or no longer Less than the parent
      next hstop =>
      intro k hk hk1
      rcases hstop with hij | hless
      · have hj0 : j = 0 := by omega
        exact hinv.1 k hk hk1 (by omega)
      · by_cases hkj : k = j
        · subst hkj
          have h2 : ¬ heightAt rq ((k - 1) / 2) < heightAt rq k := by
            simpa [rqLess_iff] using hless
          omega
        · exact hinv.1 k hk hk1 hkj
    · -- swap with the parent and keep sifting
      next hstop =>
      rw [not_or, not_not] at hstop
      obtain ⟨hne, hlessb⟩ := hstop
      have hlt : heightAt rq ((j - 1) / 2) < heightAt rq j :=
        (rqLess_iff rq j ((j - 1) / 2)).mp hlessb
      set i := (j - 1) / 2 with hi
      have hij : i < j := by omega
      have hilen : i < rq.length := by omega
      apply ih (rqSwap rq i j) i (by omega) (by rw [length_rqSwap]; omega)
      have H := heightAt_rqSwap rq hilen hj
      have Hj : heightAt (rqSwap rq i j) j = heightAt rq i := by
        rw [H j]; simp
      have Hi : heightAt (rqSwap rq i j) i = heightAt rq j := by
        rw [H i]; simp [Nat.ne_of_lt hij]
      have Ho : ∀ k, k ≠ i → k ≠ j → heightAt (rqSwap rq i j) k = heightAt rq k := by
        intro k h1 h2
        rw [H k]; simp [h1, h2]
      constructor
      · intro k hk hk1 hki
        rw [length_rqSwap] at hk
        by_cases hkj : k = j
        · subst hkj
          rw [← hi, Hj, Hi]
          exact hlt.le
        · rw [Ho k hki hkj]
          set p := (k - 1) / 2 with hp
          by_cases hpj : p = j
          · have hj1 : 1 ≤ j := by omega
            have h2 : heightAt rq k ≤ heightAt rq ((j - 1) / 2) :=
              hinv.2 hj1 k hk (by rw [← hp]; exact hpj)
            rw [hpj, Hj, ← hi] at *
            exact h2
          · by_cases hpi : p = i
            · have h2 := hinv.1 k hk hk1 hkj
              rw [← hp, hpi] at h2
              rw [hpi, Hi]
              exact le_trans h2 hlt.le
            · rw [Ho p hpi hpj]
              have h2 := hinv.1 k hk hk1 hkj
              rw [← hp] at h2
              exact h2
      · intro hi1 k hk hpk
        rw [length_rqSwap] at hk
        have hq2 : (i - 1) / 2 < i := by omega
        rw [Ho ((i - 1) / 2) (by omega) (by omega)]
        have hk1 : 1 ≤ k := by omega
        have hki : k ≠ i := by omega
        by_cases hkj : k = j
        · subst hkj
          rw [Hj]
          exact hinv.1 i hilen hi1 (by omega)
        · rw [Ho k hki hkj]
          have h2 := hinv.1 k hk hk1 hkj
          rw [hpk] at h2
          have h3 := hinv.1 i hilen hi1 (by omega)
          exact le_trans h2 h3

theorem isHeapP_heapUp (rq : RawQueue) (j : Nat) (hj : j < rq.length)
    (hinv : UpInv rq j) : IsHeapP (heapUp rq j) :=
  isHeapP_heapUpF (j + 1) rq j (Nat.lt_succ_self j) hj hinv

/-- Appending a fresh element and sifting it up from the last slot
preserves the heap invariant: exactly the `heap.Push` shape. -/
theorem isHeapP_push (rq : RawQueue) (x : SyncRequest) (hh : IsHeapP rq) :
    IsHeapP (heapUp (rq ++ [x]) ((rq ++ [x]).length - 1)) := by
  have hlen : (rq ++ [x]).length = rq.length + 1 := by simp
  have hn : (rq ++ [x]).length - 1 = rq.length := by simp
  rw [hn]
  apply isHeapP_heapUp
  · simp
  · constructor
    · intro k hk hk1 hkn
      rw [hlen] at hk
      have hklt : k < rq.length := by omega
      have hplt : (k - 1) / 2 < rq.length := by omega
      rw [heightAt_append_lt _ _ _ hklt, heightAt_append_lt _ _ _ hplt]
      exact hh k hklt hk1
    · intro hn1 k hk hpk
      rw [hlen] at hk
      omega

/-! ### Sift-down restores the heap invariant -/

theorem downChild_cases (rq : RawQueue) (j1 n : Nat) :
    downChild rq j1 n = j1 ∨ downChild rq j1 n = j1 + 1 := by
  unfold downChild
  split
  · exact Or.inr rfl
  · exact Or.inl rfl

theorem downChild_lt (rq : RawQueue) (j1 n : Nat) (h : j1 < n) :
    downChild rq j1 n < n := by
  unfold downChild
  split
  · next hc => omega
  · exact h

theorem le_downChild (rq : RawQueue) (j1 n : Nat) (h : j1 < n) :
    ∀ c, (c = j1 ∨ c = j1 + 1) → c < n →
      heightAt rq c ≤ heightAt rq (downChild rq j1 n) := by
  intro c hc hcn
  unfold downChild
  split
  · next hcond =>
    have hlt : heightAt rq j1 < heightAt rq (j1 + 1) :=
      (rqLess_iff rq (j1 + 1) j1).mp hcond.2
    rcases hc with rfl | rfl
    · exact hlt.le
    · exact le_refl _
  · next hcond =>
    rcases hc with h1 | h1 <;> subst h1
    · exact le_refl _
    · have hb : ¬ rqLess rq (j1 + 1) j1 = true := fun hh2 => hcond ⟨hcn, hh2⟩
      have h2 : ¬ heightAt rq j1 < heightAt rq (j1 + 1) := by
        simpa [rqLess_iff] using hb
      omega

theorem isHeapTo_heapDownF (fuel : Nat) :
    ∀ (rq : RawQueue) (i n : Nat), n ≤ fuel + i → n ≤ rq.length →
      DownInv rq i n → IsHeapTo (heapDownF fuel rq i n) n := by
  induction fuel with
  | zero =>
    intro rq i n hfuel hlen hinv k hk hk1
    apply hinv.1 k hk hk1
    omega
  | succ fuel ih =>
    intro rq i n hfuel hlen hinv
    rw [heapDownF]
    split
    · next hj1 =>
      have hjcn := downChild_lt rq (2 * i + 1) n hj1
      have hjcc := downChild_cases rq (2 * i + 1) n
      have hle := le_downChild rq (2 * i + 1) n hj1
      set jc := downChild rq (2 * i + 1) n with hjc
      split
      · next hless =>
        have hij : i < jc := by omega
        have hilen : i < rq.length := by omega
        have hjclen : jc < rq.length := by omega
        have hlt : heightAt rq i < heightAt rq jc := (rqLess_iff rq jc i).mp hless
        have hpjc : (jc - 1) / 2 = i := by omega
        apply ih (rqSwap rq i jc) jc n (by omega) (by rw [length_rqSwap]; omega)
        have H := heightAt_rqSwap rq hilen hjclen
        have Hj : heightAt (rqSwap rq i jc) jc = heightAt rq i := by
          rw [H jc]; simp
        have Hi : heightAt (rqSwap rq i jc) i = heightAt rq jc := by
          rw [H i]; simp [Nat.ne_of_lt hij]
        have Ho : ∀ k, k ≠ i → k ≠ jc →
            heightAt (rqSwap rq i jc) k = heightAt rq k := by
          intro k h1 h2; rw [H k]; simp [h1, h2]
        constructor
        · intro k hk hk1 hpk
          by_cases hkj : k = jc
          · subst hkj
            rw [hpjc, Hj, Hi]
            exact hlt.le
          · by_cases hki : k = i
            · subst hki
              rw [Ho ((k - 1) / 2) (by omega) (by omega), Hi]
              exact hinv.2 hk1 jc hjcn hpjc
            · rw [Ho k hki hkj]
              by_cases hpi : (k - 1) / 2 = i
              · have hkc : k = 2 * i + 1 ∨ k = 2 * i + 1 + 1 := by omega
                have h2 : heightAt rq k ≤ heightAt rq jc := hle k hkc hk
                rw [hpi, Hi]
                exact h2
              · rw [Ho ((k - 1) / 2) hpi hpk]
                exact hinv.1 k hk hk1 hpi
        · intro hjc1 k hk hpk
          have hkgt : jc < k := by omega
          rw [Ho k (by omega) (by omega), hpjc, Hi]
          have h2 := hinv.1 k hk (by omega) (by omega)
          rw [hpk] at h2
          exact h2
      · next hless =>
        intro k hk hk1
        have h2 : ¬ heightAt rq i < heightAt rq jc := by
          simpa [rqLess_iff] using hless
        by_cases hpi : (k - 1) / 2 = i
        · have hkc : k = 2 * i + 1 ∨ k = 2 * i + 1 + 1 := by omega
          have h3 : heightAt rq k ≤ heightAt rq jc := hle k hkc hk
          rw [hpi]
          omega
        · exact hinv.1 k hk hk1 hpi
    · next hj1 =>
      intro k hk hk1
      apply hinv.1 k hk hk1
      omega

theorem isHeapTo_heapDown (rq : RawQueue) (i n : Nat) (hlen : n ≤ rq.length)
    (hinv : DownInv rq i n) : IsHeapTo (heapDown rq i n) n :=
  isHeapTo_heapDownF (n - i) rq i n (by omega) hlen hinv

/-! ### Sift-down leaves the slots at or beyond `n` untouched, and only
permutes heights below them -/

theorem heightAt_heapDownF_ge (fuel : Nat) :
    ∀ (rq : RawQueue) (i n : Nat), n ≤ rq.length → ∀ k, n ≤ k →
      heightAt (heapDownF fuel rq i n) k = heightAt rq k := by
  induction fuel with
  | zero => intro rq i n _ k _; rfl
  | succ fuel ih =>
    intro rq i n hlen k hk
    rw [heapDownF]
    split
    · next hj1 =>
      have hjcn := downChild_lt rq (2 * i + 1) n hj1
      set jc := downChild rq (2 * i + 1) n with hjc
      split
      · next hless =>
        have hilen : i < rq.length := by omega
        have hjclen : jc < rq.length := by omega
        rw [ih (rqSwap rq i jc) jc n (by rw [length_rqSwap]; omega) k hk]
        rw [heightAt_rqSwap rq hilen hjclen k]
        have hki : k ≠ i := by omega
        have hkj : k ≠ jc := by omega
        simp [hki, hkj]
      · rfl
    · rfl

theorem heightAt_heapDown_ge (rq : RawQueue) (i n : Nat) (hlen : n ≤ rq.length)
    (k : Nat) (hk : n ≤ k) : heightAt (heapDown rq i n) k = heightAt rq k :=
  heightAt_heapDownF_ge (n - i) rq i n hlen k hk

theorem heapDownF_heights_mem (fuel : Nat) :
    ∀ (rq : RawQueue) (i n : Nat), n ≤ rq.length → ∀ k, k < rq.length →
      ∃ m, m < rq.length ∧ heightAt (heapDownF fuel rq i n) k = heightAt rq m := by
  induction fuel with
  | zero => intro rq i n _ k hk; exact ⟨k, hk, rfl⟩
  | succ fuel ih =>
    intro rq i n hlen k hk
    rw [heapDownF]
    split
    · next hj1 =>
      have hjcn := downChild_lt rq (2 * i + 1) n hj1
      set jc := downChild rq (2 * i + 1) n with hjc
      split
      · next hless =>
        have hilen : i < rq.length := by omega
        have hjclen : jc < rq.length := by omega
        obtain ⟨m, hm, heq⟩ :=
          ih (rqSwap rq i jc) jc n (by rw [length_rqSwap]; omega) k
            (by rw [length_rqSwap]; exact hk)
        rw [length_rqSwap] at hm
        rw [heightAt_rqSwap rq hilen hjclen m] at heq
        by_cases hmj : m = jc
        · exact ⟨i, hilen, by rw [heq, if_pos hmj]⟩
        · by_cases hmi : m = i
          · exact ⟨jc, hjclen, by rw [heq, if_neg hmj, if_pos hmi]⟩
          · exact ⟨m, hm, by rw [heq, if_neg hmj, if_neg hmi]⟩
      · exact ⟨k, hk, rfl⟩
    · exact ⟨k, hk, rfl⟩

theorem heapDown_heights_mem (rq : RawQueue) (i n : Nat) (hlen : n ≤ rq.length)
    (k : Nat) (hk : k < rq.length) :
    ∃ m, m < rq.length ∧ heightAt (heapDown rq i n) k = heightAt rq m :=
  heapDownF_heights_mem (n - i) rq i n hlen k hk

/-! ### The root of a heap is maximal -/

theorem heightAt_le_root (rq : RawQueue) (hh : IsHeapP rq) :
    ∀ k, k < rq.length → heightAt rq k ≤ heightAt rq 0 := by
  intro k
  induction k using Nat.strong_induction_on with
  | _ k ih =>
    intro hk
    rcases Nat.eq_zero_or_pos k with rfl | h1
    · exact le_refl _
    · exact le_trans (hh k hk h1) (ih ((k - 1) / 2) (by omega) (by omega))

/-! ### Characterization of `heap.Pop` on a nonempty queue -/

theorem height_setIndex (r : SyncRequest) (z : Int) :
    ({ r with index := z } : SyncRequest).height = r.height := rfl

theorem heightAt_dropLast (l : RawQueue) (k : Nat) (h : k < l.length - 1) :
    heightAt l.dropLast k = heightAt l k := by
  unfold heightAt
  rw [getD_dropLast_lt _ _ _ h]

theorem height_getLast (l : RawQueue) (h : l ≠ []) :
    (l.getLast h).height = heightAt l (l.length - 1) := by
  unfold heightAt
  have hk : l.length - 1 < l.length := by
    have := List.length_pos.mpr h
    omega
  rw [List.getLast_eq_getElem]
  simp [List.getD_eq_getElem?_getD, List.getElem?_eq_getElem hk]

theorem rawQueuePop_eq (rq : RawQueue) (hne : rq ≠ []) :
    rawQueuePop rq = .ok ({ rq.getLast hne with index := -1 }, rq.dropLast) := by
  unfold rawQueuePop
  rw [List.getLast?_eq_getLast rq hne]

theorem heapPop_core (rq : RawQueue) (n : Nat) (hn : n + 1 = rq.length) :
    ∃ r rq2, rawQueuePop (heapDown (rqSwap rq 0 n) 0 n) = .ok (r, rq2) ∧
      r.height = heightAt rq 0 ∧
      rq2.length = rq.length - 1 ∧
      (∀ k, k < rq2.length → ∃ m, m < rq.length ∧ heightAt rq2 k = heightAt rq m) ∧
      (IsHeapP rq → IsHeapP rq2) := by
  have hlen1 : (rqSwap rq 0 n).length = rq.length := length_rqSwap rq 0 n
  have hlen2 : (heapDown (rqSwap rq 0 n) 0 n).length = rq.length := by
    rw [length_heapDown, hlen1]
  have h2ne : heapDown (rqSwap rq 0 n) 0 n ≠ [] := by
    intro h
    rw [h] at hlen2
    simp at hlen2
    omega
  refine ⟨{ (heapDown (rqSwap rq 0 n) 0 n).getLast h2ne with index := -1 },
    (heapDown (rqSwap rq 0 n) 0 n).dropLast, rawQueuePop_eq _ h2ne, ?_, ?_, ?_, ?_⟩
  · rw [height_setIndex, height_getLast _ h2ne, hlen2,
      show rq.length - 1 = n by omega,
      heightAt_heapDown_ge (rqSwap rq 0 n) 0 n (by omega) n (le_refl n),
      heightAt_rqSwap rq (by omega) (by omega) n, if_pos rfl]
  · simp [hlen2]
  · intro k hk
    rw [List.length_dropLast, hlen2] at hk
    rw [heightAt_dropLast _ _ (by omega)]
    obtain ⟨m, hm, heq⟩ :=
      heapDown_heights_mem (rqSwap rq 0 n) 0 n (by omega) k (by omega)
    rw [hlen1] at hm
    rw [heightAt_rqSwap rq (by omega) (by omega) m] at heq
    by_cases hmn : m = n
    · exact ⟨0, by omega, by rw [heq, if_pos hmn]⟩
    · by_cases hm0 : m = 0
      · exact ⟨n, by omega, by rw [heq, if_neg hmn, if_pos hm0]⟩
      · exact ⟨m, hm, by rw [heq, if_neg hmn, if_neg hm0]⟩
  · intro hh k hk hk1
    rw [List.length_dropLast, hlen2] at hk
    rw [heightAt_dropLast _ _ (by omega), heightAt_dropLast _ _ (by omega)]
    apply isHeapTo_heapDown (rqSwap rq 0 n) 0 n (by omega) ?_ k (by omega) hk1
    constructor
    · intro k2 hk2 hk21 hp0
      rw [heightAt_rqSwap rq (by omega) (by omega) k2,
        if_neg (by omega), if_neg (by omega),
        heightAt_rqSwap rq (by omega) (by omega) ((k2 - 1) / 2),
        if_neg (by omega), if_neg hp0]
      exact hh k2 (by omega) hk21
    · intro h0
      exact absurd h0 (by omega)

theorem heapPop_spec (rq : RawQueue) (hne : rq ≠ []) :
    ∃ r rq2, heapPop rq = .ok (r, rq2) ∧
      r.height = heightAt rq 0 ∧
      rq2.length = rq.length - 1 ∧
      (∀ k, k < rq2.length → ∃ m, m < rq.length ∧ heightAt rq2 k = heightAt rq m) ∧
      (IsHeapP rq → IsHeapP rq2) := by
  have hpos : 0 < rq.length := List.length_pos.mpr hne
  obtain ⟨r, rq2, heq, hrest⟩ := heapPop_core rq (rq.length - 1) (by omega)
  refine ⟨r, rq2, ?_, hrest⟩
  unfold heapPop
  rw [if_neg (by omega)]
  exact heq

/-! ### `TargetQueue` operations, characterized -/

theorem Len_def (tq : TargetQueue) : tq.Len = tq.q.length := rfl

theorem TargetQueue.push_none (tq : TargetQueue) :
    TargetQueue.Push tq none = (tq, some .badPush) := rfl

theorem TargetQueue.push_some (tq : TargetQueue) (x : SyncRequest) :
    TargetQueue.Push tq (some x) =
      (⟨heapUp (tq.q ++ [{ x with index := (tq.q.length : Int) }])
        ((tq.q ++ [{ x with index := (tq.q.length : Int) }]).length - 1)⟩, none) := rfl

theorem TargetQueue.pop_empty (tq : TargetQueue) (he : tq.q = []) :
    TargetQueue.Pop tq = (none, tq, some .badPop) := by
  have herr : heapPop tq.q = .error () := by
    unfold heapPop
    rw [if_pos (by simp [he])]
  unfold TargetQueue.Pop
  rw [herr]

theorem TargetQueue.pop_of_ne (tq : TargetQueue) (hne : tq.q ≠ []) :
    ∃ r tq1, TargetQueue.Pop tq = (some r, tq1, none) ∧
      r.height = heightAt tq.q 0 ∧
      tq1.q.length = tq.q.length - 1 ∧
      (∀ k, k < tq1.q.length → ∃ m, m < tq.q.length ∧ heightAt tq1.q k = heightAt tq.q m) ∧
      (IsHeapP tq.q → IsHeapP tq1.q) := by
  obtain ⟨r, rq2, heq, h1, h2, h3, h4⟩ := heapPop_spec tq.q hne
  refine ⟨r, ⟨rq2⟩, ?_, h1, h2, h3, h4⟩
  unfold TargetQueue.Pop
  rw [heq]

theorem pop_len (tq : TargetQueue) :
    (TargetQueue.Pop tq).2.1.Len = tq.Len - 1 ∧
    (tq.Len = 0 → (TargetQueue.Pop tq).2.1 = tq) := by
  by_cases hne : tq.q = []
  · rw [TargetQueue.pop_empty tq hne]
    constructor
    · simp [Len_def, hne]
    · intro _; rfl
  · obtain ⟨r, tq1, heq, _, hlen, _, _⟩ := TargetQueue.pop_of_ne tq hne
    rw [heq]
    constructor
    · rw [Len_def, Len_def]
      exact hlen
    · intro h0
      rw [Len_def] at h0
      exact absurd (List.length_eq_zero.mp h0) hne

/-! ### Every reachable queue state is a heap -/

theorem reach_isHeapP (tq : TargetQueue) (h : Reach tq) : IsHeapP tq.q := by
  induction h with
  | init => intro k hk hk1; simp [NewTargetQueue] at hk
  | push tq r _ ih =>
    cases r with
    | none => rw [TargetQueue.push_none]; exact ih
    | some x =>
      rw [TargetQueue.push_some]
      exact isHeapP_push tq.q _ ih
  | pop tq _ ih =>
    by_cases hne : tq.q = []
    · rw [TargetQueue.pop_empty tq hne]; exact ih
    · obtain ⟨r, tq1, heq, _, _, _, h4⟩ := TargetQueue.pop_of_ne tq hne
      rw [heq]
      exact h4 ih

/-! ### Draining a heap yields a non-increasing height sequence -/

theorem popHeightsFuel_le_root (f : Nat) :
    ∀ (tq : TargetQueue), IsHeapP tq.q → f = tq.Len →
      ∀ x ∈ popHeightsFuel f tq, x ≤ heightAt tq.q 0 := by
  induction f with
  | zero => intro tq _ _ x hx; simp [popHeightsFuel] at hx
  | succ f ih =>
    intro tq hh hf x hx
    rw [Len_def] at hf
    have hne : tq.q ≠ [] := by
      intro h
      rw [h] at hf
      simp at hf
    obtain ⟨r, tq1, heq, hr, hlen, hmem, hheap⟩ := TargetQueue.pop_of_ne tq hne
    simp only [popHeightsFuel, heq] at hx
    rcases List.mem_cons.mp hx with rfl | hx2
    · exact le_of_eq hr
    · by_cases hf0 : f = 0
      · subst hf0
        simp [popHeightsFuel] at hx2
      · have hf1 : f = tq1.Len := by
          rw [Len_def, hlen]
          omega
        have h2 := ih tq1 (hheap hh) hf1 x hx2
        obtain ⟨m, hm, heq0⟩ := hmem 0 (by rw [hlen]; omega)
        have h3 := heightAt_le_root tq.q hh m hm
        rw [heq0] at h2
        omega

theorem popHeightsFuel_chain (f : Nat) :
    ∀ (tq : TargetQueue), IsHeapP tq.q → f = tq.Len →
      List.Chain' (· ≥ ·) (popHeightsFuel f tq) := by
  induction f with
  | zero => intro tq _ _; simp [popHeightsFuel]
  | succ f ih =>
    intro tq hh hf
    have hf' : f + 1 = tq.q.length := by rw [hf, Len_def]
    have hne : tq.q ≠ [] := by
      intro h
      rw [h] at hf'
      simp at hf'
    obtain ⟨r, tq1, heq, hr, hlen, hmem, hheap⟩ := TargetQueue.pop_of_ne tq hne
    simp only [popHeightsFuel, heq]
    apply List.chain'_cons'.mpr
    constructor
    · intro y hy
      have hy2 : y ∈ popHeightsFuel f tq1 := List.mem_of_mem_head? hy
      have hyfull : y ∈ popHeightsFuel (f + 1) tq := by
        simp only [popHeightsFuel, heq]
        exact List.mem_cons_of_mem _ hy2
      have h2 := popHeightsFuel_le_root (f + 1) tq hh hf y hyfull
      rw [hr]
      exact h2
    · apply ih tq1 (hheap hh)
      rw [Len_def, hlen]
      omega

theorem reach_chain (tq : TargetQueue) (h : Reach tq) :
    List.Chain' (· ≥ ·) tq.popAllHeights :=
  popHeightsFuel_chain tq.Len tq (reach_isHeapP tq h) rfl

/-! ### `Dispatcher.receive`, characterized -/

theorem receive_mem (d : Dispatcher) (ci : ChainInfo)
    (hmem : d.targetSet.contains ci.head = true) :
    d.receive ci = (d, none) := by
  unfold Dispatcher.receive Dispatcher.receiveGen
  rw [if_pos hmem]

theorem receive_new (d : Dispatcher) (ci : ChainInfo)
    (hmem : d.targetSet.contains ci.head = false) :
    d.receive ci =
      ({ d with
          targetSet := d.targetSet ++ [ci.head],
          targetQ := (TargetQueue.Push d.targetQ
            (some { chainInfo := ci, index := 0 })).1 }, none) := by
  unfold Dispatcher.receive Dispatcher.receiveGen
  rw [if_neg (by rw [hmem]; simp)]
  rw [TargetQueue.push_some]

theorem receive_lengths (d : Dispatcher) (ci : ChainInfo) :
    (d.receive ci).1 = d ∨
    ((d.receive ci).1.targetSet.length = d.targetSet.length + 1 ∧
      (d.receive ci).1.targetQ.Len = d.targetQ.Len + 1) := by
  by_cases hmem : d.targetSet.contains ci.head
  · left
    rw [receive_mem d ci hmem]
  · right
    rw [receive_new d ci (by simpa using hmem)]
    constructor
    · simp
    · rw [TargetQueue.push_some]
      show (heapUp _ _).length = d.targetQ.q.length + 1
      rw [length_heapUp]
      simp [Len_def]

theorem applyEntry_eq (e : Entry) (d : Dispatcher) (ci : ChainInfo) :
    applyEntry e d ci = d.receive ci := by
  cases e <;> rfl

theorem runEntries_eq (ps : List (Entry × ChainInfo)) :
    ∀ d, runEntries d ps = runRecvs d (ps.map Prod.snd) := by
  induction ps with
  | nil => intro d; rfl
  | cons p ps ih =>
    intro d
    have h1 := ih ((d.receive p.2).1)
    simpa [runEntries, runRecvs, applyEntry_eq] using h1

/-! ### The set/queue ledger: the dedup set grows with the queue, pops
shrink only the queue -/

theorem runDOps_ledger (ops : List DOp) :
    ∀ d : Dispatcher,
      (runDOps d ops).targetSet.length + d.targetQ.Len =
        (runDOps d ops).targetQ.Len + popCount d ops + d.targetSet.length := by
  induction ops with
  | nil =>
    intro d
    simp only [runDOps, List.foldl, popCount]
    omega
  | cons op ops ih =>
    intro d
    cases op with
    | recv ci =>
      have hrun : runDOps d (DOp.recv ci :: ops) =
          runDOps ((d.receive ci).1) ops := rfl
      have hcnt : popCount d (DOp.recv ci :: ops) =
          0 + popCount ((d.receive ci).1) ops := rfl
      rw [hrun, hcnt]
      have h1 := ih ((d.receive ci).1)
      rcases receive_lengths d ci with heq | ⟨hs, hq⟩
      · rw [heq] at h1 ⊢
        omega
      · omega
    | pop =>
      have hrun : runDOps d (DOp.pop :: ops) =
          runDOps ({ d with targetQ := (TargetQueue.Pop d.targetQ).2.1 }) ops := rfl
      have hcnt : popCount d (DOp.pop :: ops) =
          (if d.targetQ.Len ≠ 0 then 1 else 0) +
            popCount ({ d with targetQ := (TargetQueue.Pop d.targetQ).2.1 }) ops := rfl
      rw [hrun, hcnt]
      have h1 := ih ({ d with targetQ := (TargetQueue.Pop d.targetQ).2.1 })
      have hset : ({ d with targetQ := (TargetQueue.Pop d.targetQ).2.1 } :
          Dispatcher).targetSet = d.targetSet := rfl
      have hq : ({ d with targetQ := (TargetQueue.Pop d.targetQ).2.1 } :
          Dispatcher).targetQ.Len = (TargetQueue.Pop d.targetQ).2.1.Len := rfl
      rw [hset, hq] at h1
      have hpop := (pop_len d.targetQ).1
      by_cases h0 : d.targetQ.Len = 0
      · rw [if_neg (by omega)]
        omega
      · rw [if_pos (by omega)]
        omega

theorem runDOps_nodup (ops : List DOp) :
    ∀ d : Dispatcher, d.targetSet.Nodup → (runDOps d ops).targetSet.Nodup := by
  induction ops with
  | nil => intro d h; exact h
  | cons op ops ih =>
    intro d h
    cases op with
    | recv ci =>
      show (runDOps ((d.receive ci).1) ops).targetSet.Nodup
      apply ih
      by_cases hmem : d.targetSet.contains ci.head
      · rw [receive_mem d ci hmem]
        exact h
      · rw [receive_new d ci (by simpa using hmem)]
        have hnm : ci.head ∉ d.targetSet := by
          intro hin
          exact hmem (List.elem_iff.mpr hin)
        show (d.targetSet ++ [ci.head]).Nodup
        simp [List.nodup_append, h, hnm]
    | pop =>
      show (runDOps ({ d with targetQ := (TargetQueue.Pop d.targetQ).2.1 }) ops).targetSet.Nodup
      exact ih _ h

/-- The children form and the parent form of the heap invariant agree. -/
theorem isHeap_iff (rq : RawQueue) : IsHeap rq ↔ IsHeapP rq := by
  constructor
  · intro h k hk hk1
    exact h ((k - 1) / 2) k hk (by omega)
  · intro h i c hc hor
    have h1 : 1 ≤ c := by omega
    have h2 : (c - 1) / 2 = i := by omega
    have h3 := h c hc h1
    rwa [h2] at h3

/-! ### The claims -/

set_option maxRecDepth 10000 in
/-- C1: for every sequence of interleaved pushes and pops on a
`TargetQueue`, repeatedly popping all remaining elements at any reachable
point yields targets whose heights form a non-increasing sequence; in
particular, submitting heights [5, 9, 1, 20, 3] (distinct heads) in any
order, each through any of the three dispatcher entry points, and then
popping repeatedly yields the heights [20, 9, 5, 3, 1] in that order. -/
theorem C1_popAll_nonincreasing :
    (∀ tq : TargetQueue, Reach tq → List.Chain' (· ≥ ·) tq.popAllHeights) ∧
    (∀ ps : List (Entry × ChainInfo),
      (ps.map Prod.snd).Perm
        [⟨"a", 5⟩, ⟨"b", 9⟩, ⟨"c", 1⟩, ⟨"d", 20⟩, ⟨"e", 3⟩] →
      (runEntries NewDispatcher ps).targetQ.popAllHeights = [20, 9, 5, 3, 1]) := by
  constructor
  · exact fun tq h => reach_chain tq h
  · intro ps hperm
    rw [runEntries_eq ps NewDispatcher]
    have hdec : ∀ l ∈ permsOf
        ([⟨"a", 5⟩, ⟨"b", 9⟩, ⟨"c", 1⟩, ⟨"d", 20⟩, ⟨"e", 3⟩] : List ChainInfo),
        (runRecvs NewDispatcher l).targetQ.popAllHeights = [20, 9, 5, 3, 1] := by
      decide
    exact hdec _ (mem_permsOf_of_perm hperm)

/-- Witness for C1 at concrete inputs: the fresh queue is reachable, and
one concrete interleaving of the three entry points over the five
heights. -/
theorem C1_witness :
    List.Chain' (· ≥ ·) (TargetQueue.popAllHeights NewTargetQueue) ∧
    (runEntries NewDispatcher
      [(Entry.hello, ⟨"a", 5⟩), (Entry.own, ⟨"b", 9⟩), (Entry.gossip, ⟨"c", 1⟩),
        (Entry.hello, ⟨"d", 20⟩), (Entry.own, ⟨"e", 3⟩)]).targetQ.popAllHeights =
      [20, 9, 5, 3, 1] :=
  ⟨C1_popAll_nonincreasing.1 NewTargetQueue Reach.init,
    C1_popAll_nonincreasing.2 _ (List.Perm.refl _)⟩

/-- C2: a descriptor whose head is already in the dedup set is silently
dropped by every entry point — nil error, dispatcher state unchanged —
even when the new height differs; concretely, heights 10 then 999 under
the same head leave one queued target of height 10. -/
theorem C2_dedup_drop :
    (∀ (d : Dispatcher) (ci : ChainInfo) (e : Entry),
      d.targetSet.contains ci.head = true →
      applyEntry e d ci = (d, none)) ∧
    ((runRecvs NewDispatcher [⟨"h", 10⟩, ⟨"h", 999⟩]).targetQ.Len = 1 ∧
      (runRecvs NewDispatcher [⟨"h", 10⟩, ⟨"h", 999⟩]).targetQ.q.map
        SyncRequest.height = [10]) := by
  constructor
  · intro d ci e h
    rw [applyEntry_eq]
    exact receive_mem d ci h
  · constructor
    · decide
    · decide

/-- Witness for C2: after accepting head "h" at height 10, resubmitting
head "h" (height 999) through an entry point is a silent no-op. -/
theorem C2_witness :
    (Dispatcher.receive NewDispatcher ⟨"h", 10⟩).1.targetSet.contains
      (ChainInfo.mk "h" 999).head = true ∧
    applyEntry Entry.gossip (Dispatcher.receive NewDispatcher ⟨"h", 10⟩).1
      ⟨"h", 999⟩ = ((Dispatcher.receive NewDispatcher ⟨"h", 10⟩).1, none) :=
  ⟨by decide, C2_dedup_drop.1 _ _ _ (by decide)⟩

/-- C3 counterexample: the claimed equality of dedup-set cardinality and
queue length is violated as soon as a consumer pops: after one receive
and one pop the set still holds one key while the queue is empty. -/
theorem C3_counterexample :
    (runDOps NewDispatcher [DOp.recv ⟨"a", 1⟩, DOp.pop]).targetSet.length = 1 ∧
    (runDOps NewDispatcher [DOp.recv ⟨"a", 1⟩, DOp.pop]).targetQ.Len = 0 ∧
    ¬ ((runDOps NewDispatcher [DOp.recv ⟨"a", 1⟩, DOp.pop]).targetSet.length =
        (runDOps NewDispatcher [DOp.recv ⟨"a", 1⟩, DOp.pop]).targetQ.Len) := by
  refine ⟨?_, ?_, ?_⟩ <;> decide

/-- C3 as amended: after any observable sequence of receives and pops
from a fresh dispatcher, the dedup set (which stays duplicate-free)
has cardinality equal to the queue length plus the number of successful
pops — receives update both together, but a pop removes only from the
queue, never from the set. -/
theorem C3_ledger :
    ∀ ops : List DOp,
      (runDOps NewDispatcher ops).targetSet.Nodup ∧
      (runDOps NewDispatcher ops).targetSet.length =
        (runDOps NewDispatcher ops).targetQ.Len + popCount NewDispatcher ops := by
  intro ops
  constructor
  · exact runDOps_nodup ops NewDispatcher List.nodup_nil
  · have h1 := runDOps_ledger ops NewDispatcher
    simpa [NewDispatcher, NewTargetQueue, Len_def] using h1

/-- C4 at the failing input (the code bug, evaluated): after pushing
heights 1 then 2, the sift-up swap has written each element's OLD slot
into its position token — slot 0 holds the height-2 target with index 1
and slot 1 holds the height-1 target with index 0, the reverse of the
claimed "index equals current slot". -/
theorem C4_index_bug_eval :
    ((TargetQueue.Push (TargetQueue.Push NewTargetQueue
        (some ⟨⟨"a", 1⟩, 0⟩)).1 (some ⟨⟨"b", 2⟩, 0⟩)).1.q.map
      (fun r => (r.height, r.index))) = [(2, 1), (1, 0)] := by
  decide

/-- C5: popping an empty queue returns a nil target together with the
declared empty-pop error, and leaves the queue at length 0. -/
theorem C5_empty_pop (tq : TargetQueue) (h : tq.Len = 0) :
    TargetQueue.Pop tq = (none, tq, some QErr.badPop) ∧
    (TargetQueue.Pop tq).2.1.Len = 0 := by
  have he : tq.q = [] := List.length_eq_zero.mp (by rw [← Len_def]; exact h)
  refine ⟨TargetQueue.pop_empty tq he, ?_⟩
  rw [TargetQueue.pop_empty tq he]
  exact h

/-- Witness for C5 at the fresh (empty) queue. -/
theorem C5_witness :
    NewTargetQueue.Len = 0 ∧
    (TargetQueue.Pop NewTargetQueue = (none, NewTargetQueue, some QErr.badPop) ∧
      (TargetQueue.Pop NewTargetQueue).2.1.Len = 0) :=
  ⟨rfl, C5_empty_pop NewTargetQueue rfl⟩

/-- C6: when the head is untracked and the push reports an error, the
acceptance procedure returns that same error unchanged and the dedup set
is untouched (the key is inserted only after a successful push). -/
theorem C6_push_error_propagation (d : Dispatcher) (ci : ChainInfo)
    (req : Option SyncRequest) (tq1 : TargetQueue) (e : QErr)
    (hmem : d.targetSet.contains ci.head = false)
    (hpush : TargetQueue.Push d.targetQ req = (tq1, some e)) :
    d.receiveGen ci req = ({ d with targetQ := tq1 }, some e) ∧
    ({ d with targetQ := tq1 } : Dispatcher).targetSet = d.targetSet := by
  constructor
  · unfold Dispatcher.receiveGen
    rw [if_neg (by rw [hmem]; simp), hpush]
  · rfl

/-- Witness for C6: a nil push into a fresh dispatcher errors with
`errBadPush`, is propagated unchanged, and the set stays empty. -/
theorem C6_witness :
    NewDispatcher.targetSet.contains (ChainInfo.mk "a" 1).head = false ∧
    TargetQueue.Push NewDispatcher.targetQ none =
      (NewTargetQueue, some QErr.badPush) ∧
    NewDispatcher.receiveGen ⟨"a", 1⟩ none = (NewDispatcher, some QErr.badPush) :=
  ⟨by decide, rfl,
    (C6_push_error_propagation NewDispatcher ⟨"a", 1⟩ none NewTargetQueue
      QErr.badPush (by decide) rfl).1⟩

/-- C7: the max-heap invariant (every element ≥ both its children) holds
at every reachable queue state, hence immediately before and after every
Push and every Pop. -/
theorem C7_heap_invariant (tq : TargetQueue) (h : Reach tq) :
    IsHeap tq.q ∧
    (∀ r : Option SyncRequest, IsHeap (TargetQueue.Push tq r).1.q) ∧
    IsHeap (TargetQueue.Pop tq).2.1.q := by
  refine ⟨?_, ?_, ?_⟩
  · exact (isHeap_iff _).mpr (reach_isHeapP tq h)
  · intro r
    exact (isHeap_iff _).mpr (reach_isHeapP _ (Reach.push tq r h))
  · exact (isHeap_iff _).mpr (reach_isHeapP _ (Reach.pop tq h))

/-- Witness for C7 at the fresh queue. -/
theorem C7_witness :
    IsHeap NewTargetQueue.q ∧
    (∀ r : Option SyncRequest, IsHeap (TargetQueue.Push NewTargetQueue r).1.q) ∧
    IsHeap (TargetQueue.Pop NewTargetQueue).2.1.q :=
  C7_heap_invariant NewTargetQueue Reach.init

/-- C8: the three public entry points are the shared acceptance
procedure `receive`: same error result, same resulting state. -/
theorem C8_entry_points_agree (d : Dispatcher) (ci : ChainInfo) :
    d.ReceiveHello ci = d.receive ci ∧
    d.ReceiveOwnBlock ci = d.receive ci ∧
    d.ReceiveGossipBlock ci = d.receive ci :=
  ⟨rfl, rfl, rfl⟩

/-- C9: popping a nonempty queue always returns a target and a nil
error — the recovered-panic branch is unreachable when `Len() > 0`. -/
theorem C9_pop_nonempty (tq : TargetQueue) (h : 0 < tq.Len) :
    (TargetQueue.Pop tq).1.isSome = true ∧ (TargetQueue.Pop tq).2.2 = none := by
  have hne : tq.q ≠ [] := by
    rw [Len_def] at h
    exact List.length_pos.mp h
  obtain ⟨r, tq1, heq, _, _, _, _⟩ := TargetQueue.pop_of_ne tq hne
  rw [heq]
  exact ⟨rfl, rfl⟩

/-- Witness for C9 at a singleton queue. -/
theorem C9_witness :
    0 < (TargetQueue.Push NewTargetQueue (some ⟨⟨"a", 1⟩, 0⟩)).1.Len ∧
    ((TargetQueue.Pop (TargetQueue.Push NewTargetQueue
        (some ⟨⟨"a", 1⟩, 0⟩)).1).1.isSome = true ∧
      (TargetQueue.Pop (TargetQueue.Push NewTargetQueue
        (some ⟨⟨"a", 1⟩, 0⟩)).1).2.2 = none) :=
  ⟨by decide, C9_pop_nonempty _ (by decide)⟩

/-- C10: pushing a nil target returns the declared invalid-push error
and leaves the queue (length and contents) unchanged. -/
theorem C10_nil_push (tq : TargetQueue) :
    TargetQueue.Push tq none = (tq, some QErr.badPush) := rfl

end Syncer
